import Mathlib

/-!
# outbox-feed-relay: discovery-and-fan-in pipeline

A shallow embedding of `helpers.go` and `main.go`.

* Go `string` values are modelled as `String`; the regular-expression engine reads a
  string rune by rune, which is `String.data`.
* The two process-wide cache maps, and the log of subscriptions opened on the global
  `pool`, are the fields of an explicit `State` threaded through every function.
* `time.Now()` is an input of the function that reads it (an instant in nanoseconds).
* The events that the channel returned by `pool.SubMany` yields before it is closed
  are an input list, in arrival order. The channel is closed when the last per-relay
  goroutine of the subscription ends; a subscription on no relay at all has none, so
  its channel is never closed and a `range` loop over it never ends.
-/

namespace OutboxFeedRelay

/-! ## `regexp`: the fragment of RE2 syntax used by `wsURLPattern` -/

/-- A bracket expression such as `[a-zA-Z0-9.-]`: its ranges, and its single runes. -/
structure CharClass where
  ranges : List (Char × Char)
  singles : List Char

/-- Rune `c` belongs to the bracket expression. -/
def CharClass.mem (k : CharClass) (c : Char) : Bool :=
  k.ranges.any (fun r => decide (r.1.toNat ≤ c.toNat) && decide (c.toNat ≤ r.2.toNat))
    || k.singles.any (fun d => decide (d = c))

/-- Abstract syntax of the regular expressions needed (anchors are handled by
`Regex.MatchString`). `none` is the expression without any match; it only arises as
a derivative. -/
inductive Regex where
  | none : Regex
  | empty : Regex
  | cls : CharClass → Regex
  | cat : Regex → Regex → Regex
  | alt : Regex → Regex → Regex
  | star : Regex → Regex

namespace Regex

/-- A literal rune, e.g. `w` or the escaped `\.`. -/
def lit (c : Char) : Regex := cls ⟨[], [c]⟩

/-- A literal run of runes, e.g. `wss://`. -/
def str : List Char → Regex
  | [] => empty
  | c :: cs => cat (lit c) (str cs)

/-- The postfix operator `+`: one or more. -/
def plus (r : Regex) : Regex := cat r (star r)

/-- The postfix operator `?`: zero or one. -/
def opt (r : Regex) : Regex := alt r empty

/-- The repetition `{n,}`: at least `n`. -/
def atLeast : Nat → Regex → Regex
  | 0, r => star r
  | n + 1, r => cat r (atLeast n r)

/-- The expression matches the empty string. -/
def nullable : Regex → Bool
  | none => false
  | empty => true
  | cls _ => false
  | cat a b => nullable a && nullable b
  | alt a b => nullable a || nullable b
  | star _ => true

/-- Brzozowski derivative: what remains to be matched after reading rune `c`. -/
def deriv (c : Char) : Regex → Regex
  | none => none
  | empty => none
  | cls k => if k.mem c then empty else none
  | cat a b => if nullable a then alt (cat (deriv c a) b) (deriv c b) else cat (deriv c a) b
  | alt a b => alt (deriv c a) (deriv c b)
  | star a => cat (deriv c a) (star a)

/-- The whole rune sequence is matched by the expression. -/
def matchRunes : Regex → List Char → Bool
  | r, [] => nullable r
  | r, c :: cs => matchRunes (deriv c r) cs

/-- `(*Regexp).MatchString` for a pattern of the form `^r$` (no flags): the text
contains a match of `^r$` exactly when `r` matches all of it. -/
def MatchString (r : Regex) (s : String) : Bool := matchRunes r s.data

end Regex

/-! ## helpers.go -/

/-- The bracket expression `[a-zA-Z0-9.-]`. -/
def hostClass : CharClass := ⟨[('a', 'z'), ('A', 'Z'), ('0', '9')], ".-".data⟩

/-- The bracket expression `[a-zA-Z]`. -/
def alphaClass : CharClass := ⟨[('a', 'z'), ('A', 'Z')], []⟩

/-- The bracket expression `[a-zA-Z0-9._~%!$&'()*+,;=:@/?-]`. -/
def pathClass : CharClass :=
  ⟨[('a', 'z'), ('A', 'Z'), ('0', '9')], "._~%!$&'()*+,;=:@/?-".data⟩

/-- The constant `wsURLPattern`, between its anchors `^` and `$`:
`wss://[a-zA-Z0-9.-]+\.[a-zA-Z]{2,}(/[a-zA-Z0-9._~%!$&'()*+,;=:@/?-]*)?`. -/
def wsURLPattern : Regex :=
  Regex.cat (Regex.str "wss://".data)
    (Regex.cat (Regex.plus (Regex.cls hostClass))
      (Regex.cat (Regex.lit '.')
        (Regex.cat (Regex.atLeast 2 (Regex.cls alphaClass))
          (Regex.opt (Regex.cat (Regex.lit '/') (Regex.star (Regex.cls pathClass)))))))

/-- The function `isValidWebSocketURL` of helpers.go. -/
def isValidWebSocketURL (url : String) : Bool :=
  Regex.MatchString wsURLPattern url

/-- What `nip19.Decode` hands back as its `any` value: a `string` (for `npub`,
`nsec` and `note` tokens) or one of the pointer structs (for `nprofile`, `nevent`
and `naddr` tokens). -/
inductive DecodedValue where
  | str (s : String)
  | pointer
  deriving DecidableEq, Repr

/-- The library function `nip19.Decode`, taken as a parameter: from a token to either
an error or the pair of the token's kind and its value. -/
abbrev Decoder := String → Except String (String × DecodedValue)

/-- How a Go function call ends: it returns a value, it panics, or it never returns
because it waits forever on a channel. -/
inductive Outcome (α : Type) where
  | returned (a : α)
  | panicked (err : String)
  | blocked
  deriving DecidableEq, Repr

/-- The function `nPubToPubkey` of helpers.go: `panic(err)` when decoding fails, and the
type assertion `v.(string)` panics when the value is not a string. -/
def nPubToPubkey (Decode : Decoder) (nPub : String) : Outcome String :=
  match Decode nPub with
  | Except.error err => Outcome.panicked err
  | Except.ok (_, DecodedValue.str v) => Outcome.returned v
  | Except.ok (_, DecodedValue.pointer) =>
    Outcome.panicked "interface conversion: interface is not string"

/-! ## go-nostr: the types and methods main.go calls -/

/-- The type `nostr.Tag`, a slice of strings. -/
abbrev Tag := List String

/-- The type `nostr.Tags`, a slice of tags. -/
abbrev Tags := List Tag

/-- The method `Tag.Value`: the second item, or the empty string. -/
def Tag.Value (tag : Tag) : String :=
  match tag with
  | _ :: v :: _ => v
  | _ => ""

/-- The method `Tag.StartsWith`: the tag has at least as many items as `pre`, its
leading items equal those of `pre`, and the last item of `pre` is compared with
`strings.HasPrefix` only. (main.go passes a one-item `pre`; the Go method panics on an
empty one.) -/
def Tag.StartsWith : Tag → List String → Bool
  | _, [] => true
  | [], _ :: _ => false
  | t :: _, [p] => p.data.isPrefixOf t.data
  | t :: ts, p :: q :: qs => decide (t = p) && Tag.StartsWith ts (q :: qs)

/-- The method `Tags.GetAll`: the tags that start with `pre`, in order. -/
def Tags.GetAll (tags : Tags) (pre : List String) : Tags :=
  tags.filter (fun tag => Tag.StartsWith tag pre)

/-- The fields of `nostr.Event` that main.go reads or filters on. -/
structure Event where
  PubKey : String
  Kind : Nat
  Tags : Tags
  deriving DecidableEq, Repr

/-- The struct `nostr.Filter`; a field left out of a composite literal has its zero
value. -/
structure Filter where
  IDs : List String := []
  Kinds : List Nat := []
  Authors : List String := []
  Tags : List (String × List String) := []
  Since : Option Nat := none
  Until : Option Nat := none
  Limit : Int := 0
  Search : String := ""
  LimitZero : Bool := false
  deriving DecidableEq, Repr

/-- The constant `nostr.KindFollowList`. -/
def KindFollowList : Nat := 3

/-- The constant `nostr.KindRelayListMetadata`. -/
def KindRelayListMetadata : Nat := 10002

/-! ## context and time -/

/-- A `context.Context`: the background context, or a child made by
`context.WithTimeout` (duration in nanoseconds) or by `context.WithCancel` (`id` names
its cancel function). -/
inductive Context where
  | Background
  | WithTimeout (parent : Context) (d : Nat)
  | WithCancel (parent : Context) (id : Nat)
  deriving DecidableEq, Repr

/-- The context is done, `cancelled` telling which cancel functions were called and
`elapsed` being the time since the context was made. The background context never
is. -/
def Context.isDone (cancelled : Nat → Bool) (elapsed : Nat) : Context → Bool
  | Background => false
  | WithTimeout parent d => decide (d ≤ elapsed) || parent.isDone cancelled elapsed
  | WithCancel parent id => cancelled id || parent.isDone cancelled elapsed

/-- The constant `time.Second`, in nanoseconds. -/
def Second : Nat := 1000000000

/-- The constant `time.Hour`, in nanoseconds. -/
def Hour : Nat := 3600 * Second

/-! ## main.go -/

/-- One call `pool.SubMany(ctx, urls, filters)`. -/
structure SubManyCall where
  ctx : Context
  urls : List String
  filters : List Filter
  deriving DecidableEq, Repr

/-- The struct `CacheEntry`; `Expiration` is an instant in nanoseconds. -/
structure CacheEntry where
  Data : List String
  Expiration : Nat
  deriving DecidableEq, Repr

/-- The variable `cacheDuration`. -/
def cacheDuration : Nat := 1 * Hour

/-- The package-level state: the maps `relayCache` and `followCache`, and the calls
made so far on the global `pool`. -/
structure State where
  relayCache : String → Option CacheEntry
  followCache : String → Option CacheEntry
  subscriptions : List SubManyCall

/-- The state at process start: both maps empty, no subscription opened. -/
def State.init : State := ⟨fun _ => none, fun _ => none, []⟩

/-- The map assignment `m[key] = entry`. -/
def mapSet (m : String → Option CacheEntry) (key : String) (entry : CacheEntry) :
    String → Option CacheEntry :=
  fun k => if k = key then some entry else m k

/-- The condition `found && time.Now().Before(entry.Expiration)` on `m[key]`: the
entry when it holds. -/
def validEntry (m : String → Option CacheEntry) (key : String) (now : Nat) :
    Option CacheEntry :=
  match m key with
  | some entry => if now < entry.Expiration then some entry else none
  | none => none

/-- The body of the inner loop of `GetFollowsRelays` (lines 111-117), on the pair of
the set `relaySet` (a list read by membership only) and the slice `relays`. -/
def addRelayTag (acc : List String × List String) (tag : Tag) : List String × List String :=
  let url := tag.Value
  if isValidWebSocketURL url then
    if url ∈ acc.1 then acc else (url :: acc.1, acc.2 ++ [url])
  else acc

/-- The loop of `GetFollowsRelays` (lines 109-119) over the events received. -/
def relayLoop (received : List Event) (acc : List String × List String) :
    List String × List String :=
  received.foldl (fun a ev => (ev.Tags.GetAll ["r"]).foldl addRelayTag a) acc

/-- The function `GetFollowsRelays`. `now₁` and `now₂` are the two readings of
`time.Now()`, `received` the events the subscription yields before its one-second
timeout closes it. With no discovery relay the channel is never closed: the loop of
lines 109-119 never ends, and lines 121-128 are not reached. -/
def GetFollowsRelays (npub : String) (follows discoveryRelays : List String)
    (now₁ now₂ : Nat) (received : List Event) (st : State) : Outcome (List String) × State :=
  let cacheKey := "follows_relays_" ++ npub
  match validEntry st.relayCache cacheKey now₁ with
  | some entry => (Outcome.returned entry.Data, st)
  | none =>
    let ctx := Context.WithTimeout Context.Background (1 * Second)
    let filters : List Filter := [{ Kinds := [KindRelayListMetadata], Authors := follows }]
    let st₁ : State :=
      { st with subscriptions := st.subscriptions ++ [⟨ctx, discoveryRelays, filters⟩] }
    match discoveryRelays with
    | [] => (Outcome.blocked, st₁)
    | _ :: _ =>
      let relays := (relayLoop received ([], [])).2
      (Outcome.returned relays,
        { st₁ with relayCache := mapSet st₁.relayCache cacheKey ⟨relays, now₂ + cacheDuration⟩ })

/-- The loop of `GetFollows` (lines 152-160): the values of the selected tags are
appended, and the loop is left after the first event that makes the slice non-empty. -/
def followLoop : List Event → List String → List String
  | [], followedPubkeys => followedPubkeys
  | ev :: rest, followedPubkeys =>
    let followedPubkeys := (ev.Tags.GetAll ["p"]).foldl (fun a tag => a ++ [tag.Value]) followedPubkeys
    if followedPubkeys.length > 0 then followedPubkeys else followLoop rest followedPubkeys

/-- The function `GetFollows`, with the same inputs as `GetFollowsRelays`. The filter
literal calls `nPubToPubkey` before the subscription is opened. With no discovery relay
the channel yields nothing and is never closed: the loop of lines 152-160 never ends,
and lines 162-169 are not reached. -/
def GetFollows (Decode : Decoder) (npub : String) (discoveryRelays : List String)
    (now₁ now₂ : Nat) (received : List Event) (st : State) : Outcome (List String) × State :=
  let cacheKey := "follows_" ++ npub
  match validEntry st.followCache cacheKey now₁ with
  | some entry => (Outcome.returned entry.Data, st)
  | none =>
    let ctx := Context.WithTimeout Context.Background (1 * Second)
    match nPubToPubkey Decode npub with
    | Outcome.panicked err => (Outcome.panicked err, st)
    | Outcome.blocked => (Outcome.blocked, st)
    | Outcome.returned pk =>
      let filters : List Filter := [{ Kinds := [KindFollowList], Authors := [pk], Limit := 1 }]
      let st₁ : State :=
        { st with subscriptions := st.subscriptions ++ [⟨ctx, discoveryRelays, filters⟩] }
      match discoveryRelays with
      | [] => (Outcome.blocked, st₁)
      | _ :: _ =>
        let followedPubkeys := followLoop received []
        (Outcome.returned followedPubkeys,
          { st₁ with followCache := mapSet st₁.followCache cacheKey ⟨followedPubkeys, now₂ + cacheDuration⟩ })

set_option linter.unusedVariables false in
/-- The function literal appended to `npubRelay.QueryEvents` (lines 62-82), closed
over `relays`: the subscription its goroutine opens. Line 74 declares a new `ctx`
inside the goroutine, which hides the parameter. -/
def queryEvents (relays : List String) (ctx : Context) (filter : Filter) : SubManyCall :=
  let npubFilter : List Filter :=
    [{ Authors := filter.Authors, Kinds := filter.Kinds, Tags := filter.Tags, Limit := filter.Limit }]
  let ctx := Context.Background
  ⟨ctx, relays, npubFilter⟩

/-- The function `strings.TrimPrefix`. -/
def TrimPrefix (s pre : String) : String :=
  if pre.data.isPrefixOf s.data then ⟨s.data.drop pre.data.length⟩ else s

/-- The part of `khatru.Relay` that `dynamicRelayHandler` installs. -/
structure Relay where
  QueryEvents : List (Context → Filter → SubManyCall)

/-- What the environment supplies while one request is handled: the request path, the
two results of `GetDiscoveryRelays()`, the four readings of the clock and the events
received by the two resolvers. -/
structure Request where
  path : String
  discovery₁ : List String
  discovery₂ : List String
  now₁ : Nat
  now₂ : Nat
  now₃ : Nat
  now₄ : Nat
  followEvents : List Event
  relayEvents : List Event

/-- The function `dynamicRelayHandler`, up to the point where it hands the relay to
`ServeHTTP`. -/
def dynamicRelayHandler (Decode : Decoder) (req : Request) (st : State) : Outcome Relay × State :=
  let npub := TrimPrefix req.path "/"
  match GetFollows Decode npub req.discovery₁ req.now₁ req.now₂ req.followEvents st with
  | (Outcome.panicked err, st₁) => (Outcome.panicked err, st₁)
  | (Outcome.blocked, st₁) => (Outcome.blocked, st₁)
  | (Outcome.returned follows, st₁) =>
    match GetFollowsRelays npub follows req.discovery₂ req.now₃ req.now₄ req.relayEvents st₁ with
    | (Outcome.panicked err, st₂) => (Outcome.panicked err, st₂)
    | (Outcome.blocked, st₂) => (Outcome.blocked, st₂)
    | (Outcome.returned relays, st₂) => (Outcome.returned ⟨[] ++ [queryEvents relays]⟩, st₂)

/-- The states the process can be in: the initial one, and those reached from it by
handling a request or by a client query running an installed handler. -/
inductive Reachable (Decode : Decoder) : State → Prop where
  | init : Reachable Decode State.init
  | request (req : Request) (st : State) :
      Reachable Decode st → Reachable Decode (dynamicRelayHandler Decode req st).2
  | query (call : SubManyCall) (st : State) :
      Reachable Decode st →
        Reachable Decode { st with subscriptions := st.subscriptions ++ [call] }

/-! ## What a regular expression denotes -/

/-- The rune sequences an expression denotes, as in the RE2 syntax description:
`Matches r s` says that `s` is in the language of `r`. -/
inductive Regex.Matches : Regex → List Char → Prop where
  | empty : Regex.Matches Regex.empty []
  | cls (k : CharClass) (c : Char) : k.mem c = true → Regex.Matches (Regex.cls k) [c]
  | cat (a b : Regex) (s t : List Char) :
      Regex.Matches a s → Regex.Matches b t → Regex.Matches (Regex.cat a b) (s ++ t)
  | altLeft (a b : Regex) (s : List Char) : Regex.Matches a s → Regex.Matches (Regex.alt a b) s
  | altRight (a b : Regex) (s : List Char) : Regex.Matches b s → Regex.Matches (Regex.alt a b) s
  | starNil (a : Regex) : Regex.Matches (Regex.star a) []
  | starCons (a : Regex) (s t : List Char) :
      Regex.Matches a s → Regex.Matches (Regex.star a) t → Regex.Matches (Regex.star a) (s ++ t)

/-- An ASCII letter, the bracket expression `[a-zA-Z]`. -/
def isLetter (c : Char) : Prop :=
  (97 ≤ c.toNat ∧ c.toNat ≤ 122) ∨ (65 ≤ c.toNat ∧ c.toNat ≤ 90)

/-- An ASCII digit, the bracket expression `[0-9]`. -/
def isDigit (c : Char) : Prop := 48 ≤ c.toNat ∧ c.toNat ≤ 57

/-- A rune allowed in the host part: an ASCII letter or digit, `.` or `-`. -/
def isHostRune (c : Char) : Prop := isLetter c ∨ isDigit c ∨ c = '.' ∨ c = '-'

/-- The loop invariant of `GetFollowsRelays`: the slice `relays` has no duplicate, and
the set `relaySet` holds exactly its items. -/
def RelayAcc (acc : List String × List String) : Prop :=
  acc.2.Nodup ∧ ∀ u, u ∈ acc.1 ↔ u ∈ acc.2

/-- The filter `GetFollows` sends for the decoded key `pk` (lines 145-149). -/
def followFilter (pk : String) : Filter :=
  { Kinds := [KindFollowList], Authors := [pk], Limit := 1 }

/-- The filter `GetFollowsRelays` sends for the follow list (lines 101-104). -/
def relayFilter (follows : List String) : Filter :=
  { Kinds := [KindRelayListMetadata], Authors := follows }

/-- The context both resolvers subscribe under (a one-second timeout on the background
context). -/
def resolverCtx : Context := Context.WithTimeout Context.Background (1 * Second)

/-- The tag has a first item, its name, and the name begins with `pre`. -/
def Tag.nameBeginsWith (pre : String) : Tag → Bool
  | [] => false
  | name :: _ => pre.data.isPrefixOf name.data

/-- Every key of `followCache` is `follows_` followed by a token that
`nPubToPubkey` decodes. -/
def FollowKeysDecodable (Decode : Decoder) (st : State) : Prop :=
  ∀ npub entry, st.followCache ("follows_" ++ npub) = some entry →
    ∃ pk, nPubToPubkey Decode npub = Outcome.returned pk

namespace Regex

theorem matches_none_iff (s : List Char) : Matches none s ↔ False := by
  constructor
  · intro h; cases h
  · intro h; exact h.elim

theorem matches_empty_iff (s : List Char) : Matches empty s ↔ s = [] := by
  constructor
  · intro h; cases h; rfl
  · rintro rfl; exact Matches.empty

theorem matches_cls_iff (k : CharClass) (s : List Char) :
    Matches (cls k) s ↔ ∃ c, s = [c] ∧ k.mem c = true := by
  constructor
  · intro h; cases h with
    | cls _ c hc => exact ⟨c, rfl, hc⟩
  · rintro ⟨c, rfl, hc⟩; exact Matches.cls k c hc

theorem matches_cat_iff (a b : Regex) (s : List Char) :
    Matches (cat a b) s ↔ ∃ u v, s = u ++ v ∧ Matches a u ∧ Matches b v := by
  constructor
  · intro h; cases h with
    | cat _ _ u v hu hv => exact ⟨u, v, rfl, hu, hv⟩
  · rintro ⟨u, v, rfl, hu, hv⟩; exact Matches.cat a b u v hu hv

theorem matches_alt_iff (a b : Regex) (s : List Char) :
    Matches (alt a b) s ↔ Matches a s ∨ Matches b s := by
  constructor
  · intro h; cases h with
    | altLeft _ _ _ h => exact Or.inl h
    | altRight _ _ _ h => exact Or.inr h
  · rintro (h | h)
    · exact Matches.altLeft a b s h
    · exact Matches.altRight a b s h

/-- A non-empty match of `a*` starts with a non-empty match of `a`. -/
theorem matches_star_cons (a : Regex) (c : Char) (s : List Char)
    (h : Matches (star a) (c :: s)) :
    ∃ u v, s = u ++ v ∧ Matches a (c :: u) ∧ Matches (star a) v := by
  generalize hr : star a = r at h
  generalize hw : c :: s = w at h
  induction h generalizing s with
  | empty => cases hr
  | cls => cases hr
  | cat => cases hr
  | altLeft => cases hr
  | altRight => cases hr
  | starNil => cases hw
  | starCons a' u v hu hv _ ih =>
    cases hr
    cases u with
    | nil => exact ih s rfl (by simpa using hw)
    | cons d u =>
      simp only [List.cons_append, List.cons.injEq] at hw
      obtain ⟨rfl, rfl⟩ := hw
      exact ⟨u, v, rfl, hu, hv⟩

theorem nullable_iff (r : Regex) : nullable r = true ↔ Matches r [] := by
  induction r with
  | none => simp [nullable, matches_none_iff]
  | empty => simp [nullable, matches_empty_iff]
  | cls k => simp [nullable, matches_cls_iff]
  | cat a b iha ihb =>
    simp only [nullable, Bool.and_eq_true, iha, ihb, matches_cat_iff]
    constructor
    · rintro ⟨ha, hb⟩; exact ⟨[], [], rfl, ha, hb⟩
    · rintro ⟨u, v, huv, ha, hb⟩
      have h := List.append_eq_nil.mp huv.symm
      rw [h.1] at ha; rw [h.2] at hb
      exact ⟨ha, hb⟩
  | alt a b iha ihb => simp [nullable, iha, ihb, matches_alt_iff]
  | star a _ => simp [nullable, Matches.starNil]

theorem deriv_iff (r : Regex) (c : Char) (s : List Char) :
    Matches (deriv c r) s ↔ Matches r (c :: s) := by
  induction r generalizing s with
  | none => simp [deriv, matches_none_iff]
  | empty => simp [deriv, matches_none_iff, matches_empty_iff]
  | cls k =>
    simp only [deriv, matches_cls_iff]
    by_cases hk : k.mem c = true
    · rw [if_pos hk, matches_empty_iff]
      constructor
      · rintro rfl; exact ⟨c, rfl, hk⟩
      · rintro ⟨d, hd, _⟩
        simp only [List.cons.injEq] at hd
        exact hd.2
    · rw [if_neg hk, matches_none_iff, false_iff]
      rintro ⟨d, hd, hd'⟩
      simp only [List.cons.injEq] at hd
      rw [← hd.1] at hd'
      exact hk hd'
  | cat a b iha ihb =>
    have key : Matches (cat a b) (c :: s) ↔
        (∃ u v, s = u ++ v ∧ Matches a (c :: u) ∧ Matches b v) ∨
          (Matches a [] ∧ Matches b (c :: s)) := by
      rw [matches_cat_iff]
      constructor
      · rintro ⟨u, v, huv, ha, hb⟩
        cases u with
        | nil => right; simp only [List.nil_append] at huv; rw [huv]; exact ⟨ha, hb⟩
        | cons d u =>
          simp only [List.cons_append, List.cons.injEq] at huv
          obtain ⟨rfl, rfl⟩ := huv
          exact Or.inl ⟨u, v, rfl, ha, hb⟩
      · rintro (⟨u, v, rfl, ha, hb⟩ | ⟨ha, hb⟩)
        · exact ⟨c :: u, v, rfl, ha, hb⟩
        · exact ⟨[], c :: s, rfl, ha, hb⟩
    rw [key]
    by_cases hn : nullable a = true
    · simp only [deriv]
      rw [if_pos hn]
      simp only [matches_alt_iff, matches_cat_iff, iha, ihb]
      have hn' := (nullable_iff a).mp hn
      constructor
      · rintro (h | h)
        · exact Or.inl h
        · exact Or.inr ⟨hn', h⟩
      · rintro (h | ⟨_, h⟩)
        · exact Or.inl h
        · exact Or.inr h
    · simp only [deriv]
      rw [if_neg hn]
      simp only [matches_cat_iff, iha]
      constructor
      · intro h; exact Or.inl h
      · rintro (h | ⟨ha, _⟩)
        · exact h
        · exact absurd ((nullable_iff a).mpr ha) hn
  | alt a b iha ihb => simp [deriv, matches_alt_iff, iha, ihb]
  | star a iha =>
    simp only [deriv, matches_cat_iff, iha]
    constructor
    · rintro ⟨u, v, rfl, ha, hv⟩
      exact Matches.starCons a (c :: u) v ha hv
    · intro h
      exact matches_star_cons a c s h

/-- The matcher decides the language of the expression. -/
theorem matchRunes_iff (r : Regex) (s : List Char) : matchRunes r s = true ↔ Matches r s := by
  induction s generalizing r with
  | nil => simpa [matchRunes] using nullable_iff r
  | cons c s ih => rw [matchRunes, ih, deriv_iff]

end Regex

namespace Regex

theorem matches_lit_iff (c : Char) (s : List Char) : Matches (lit c) s ↔ s = [c] := by
  simp only [lit, matches_cls_iff, CharClass.mem, List.any_nil, List.any_cons, Bool.false_or,
    Bool.or_false, decide_eq_true_eq]
  constructor
  · rintro ⟨d, rfl, rfl⟩; rfl
  · rintro rfl; exact ⟨c, rfl, rfl⟩

theorem matches_str_iff (l s : List Char) : Matches (str l) s ↔ s = l := by
  induction l generalizing s with
  | nil => simp [str, matches_empty_iff]
  | cons c l ih =>
    simp only [str, matches_cat_iff, matches_lit_iff, ih]
    constructor
    · rintro ⟨u, v, rfl, rfl, rfl⟩; rfl
    · rintro rfl; exact ⟨[c], l, rfl, rfl, rfl⟩

theorem matches_star_cls_iff (k : CharClass) (s : List Char) :
    Matches (star (cls k)) s ↔ ∀ c ∈ s, k.mem c = true := by
  induction s with
  | nil => simp [Matches.starNil]
  | cons c s ih =>
    constructor
    · intro h
      obtain ⟨u, v, rfl, hu, hv⟩ := matches_star_cons _ c s h
      obtain ⟨d, hd, hk⟩ := (matches_cls_iff k _).mp hu
      simp only [List.cons.injEq] at hd
      obtain ⟨rfl, rfl⟩ := hd
      intro x hx
      rcases List.mem_cons.mp hx with rfl | hx
      · exact hk
      · exact ih.mp (by simpa using hv) x hx
    · intro h
      have h1 : Matches (cls k) [c] := Matches.cls k c (h c (List.mem_cons_self c s))
      have h2 : Matches (star (cls k)) s :=
        ih.mpr (fun x hx => h x (List.mem_cons_of_mem c hx))
      exact Matches.starCons (cls k) [c] s h1 h2

theorem matches_atLeast_cls_iff (n : Nat) (k : CharClass) (s : List Char) :
    Matches (atLeast n (cls k)) s ↔ n ≤ s.length ∧ ∀ c ∈ s, k.mem c = true := by
  induction n generalizing s with
  | zero => simp [atLeast, matches_star_cls_iff]
  | succ n ih =>
    simp only [atLeast, matches_cat_iff, matches_cls_iff, ih]
    constructor
    · rintro ⟨u, v, rfl, ⟨c, rfl, hc⟩, hn, hv⟩
      refine ⟨by simp only [List.singleton_append, List.length_cons]; omega, ?_⟩
      intro x hx
      rcases List.mem_cons.mp hx with rfl | hx
      · exact hc
      · exact hv x hx
    · rintro ⟨hn, hall⟩
      cases s with
      | nil => simp at hn
      | cons c s =>
        refine ⟨[c], s, rfl, ⟨c, rfl, hall c (List.mem_cons_self c s)⟩, ?_, ?_⟩
        · simp only [List.length_cons] at hn; omega
        · exact fun x hx => hall x (List.mem_cons_of_mem c hx)

theorem matches_plus_cls_iff (k : CharClass) (s : List Char) :
    Matches (plus (cls k)) s ↔ s ≠ [] ∧ ∀ c ∈ s, k.mem c = true := by
  have h := matches_atLeast_cls_iff 1 k s
  simp only [atLeast] at h
  rw [plus, h]
  constructor
  · rintro ⟨hn, hall⟩
    refine ⟨?_, hall⟩
    rintro rfl
    simp at hn
  · rintro ⟨hn, hall⟩
    refine ⟨?_, hall⟩
    cases s with
    | nil => exact absurd rfl hn
    | cons c s => simp

end Regex

theorem alphaClass_mem_iff (c : Char) : alphaClass.mem c = true ↔ isLetter c := by
  simp [CharClass.mem, alphaClass, isLetter]

theorem hostClass_mem_iff (c : Char) : hostClass.mem c = true ↔ isHostRune c := by
  have hd : ".-".data = ['.', '-'] := rfl
  simp only [CharClass.mem, hostClass, hd, isHostRune, isLetter, isDigit]
  simp
  tauto

/-- The language of `wsURLPattern`, spelled out. -/
theorem wsURLPattern_matches_iff (s : List Char) :
    Regex.Matches wsURLPattern s ↔
      ∃ pre tld rest, s = "wss://".data ++ (pre ++ '.' :: tld) ++ rest ∧ pre ≠ [] ∧
        (∀ c ∈ pre, isHostRune c) ∧ 2 ≤ tld.length ∧ (∀ c ∈ tld, isLetter c) ∧
        (rest = [] ∨ ∃ t, rest = '/' :: t ∧ ∀ c ∈ t, pathClass.mem c = true) := by
  simp only [wsURLPattern, Regex.opt, Regex.matches_cat_iff, Regex.matches_str_iff,
    Regex.matches_plus_cls_iff, Regex.matches_lit_iff, Regex.matches_atLeast_cls_iff,
    Regex.matches_alt_iff, Regex.matches_empty_iff, Regex.matches_star_cls_iff,
    hostClass_mem_iff, alphaClass_mem_iff]
  constructor
  · rintro ⟨_, _, rfl, rfl, pre, _, rfl, ⟨hne, hpre⟩, _, _, rfl, rfl, tld, rest, rfl,
      ⟨hlen, htld⟩, hrest⟩
    refine ⟨pre, tld, rest, by simp, hne, hpre, hlen, htld, ?_⟩
    rcases hrest with ⟨_, t, rfl, rfl, ht⟩ | rfl
    · exact Or.inr ⟨t, rfl, ht⟩
    · exact Or.inl rfl
  · rintro ⟨pre, tld, rest, rfl, hne, hpre, hlen, htld, hrest⟩
    refine ⟨_, pre ++ '.' :: tld ++ rest, by simp, rfl, pre, '.' :: tld ++ rest, by simp,
      ⟨hne, hpre⟩, ['.'], tld ++ rest, rfl, rfl, tld, rest, rfl, ⟨hlen, htld⟩, ?_⟩
    rcases hrest with rfl | ⟨t, rfl, ht⟩
    · exact Or.inr rfl
    · exact Or.inl ⟨['/'], t, rfl, rfl, ht⟩

theorem isValidWebSocketURL_iff (s : String) :
    isValidWebSocketURL s = true ↔ Regex.Matches wsURLPattern s.data := by
  simp only [isValidWebSocketURL, Regex.MatchString, Regex.matchRunes_iff]

theorem not_isHostRune_slash : ¬ isHostRune '/' := by
  simp [isHostRune, isLetter, isDigit]

theorem not_isHostRune_colon : ¬ isHostRune ':' := by
  simp [isHostRune, isLetter, isDigit]

/-- Two ways of cutting a text before a `/`: when neither head contains `/` and the
second tail is empty or starts with `/`, the first head is a prefix of the second. -/
theorem head_prefix_of_split (a r a' r' : List Char) (h : a ++ r = a' ++ r')
    (ha : '/' ∉ a) (hr' : r' = [] ∨ ∃ t, r' = '/' :: t) :
    ∃ m, a' = a ++ m ∧ r = m ++ r' := by
  induction a generalizing a' with
  | nil => exact ⟨a', rfl, by simpa using h⟩
  | cons x a ih =>
    cases a' with
    | nil =>
      rcases hr' with rfl | ⟨t, rfl⟩
      · simp at h
      · simp only [List.cons_append, List.nil_append, List.cons.injEq] at h
        exact absurd (h.1 ▸ List.mem_cons_self x a) ha
    | cons y a' =>
      simp only [List.cons_append, List.cons.injEq] at h
      obtain ⟨rfl, h⟩ := h
      obtain ⟨m, rfl, rfl⟩ := ih a' h (fun hx => ha (List.mem_cons_of_mem x hx))
      exact ⟨m, rfl, rfl⟩

/-- An accepted text, cut as host and rest. -/
theorem accepted_split (s : String) (h : isValidWebSocketURL s = true) :
    ∃ pre tld rest, s.data = "wss://".data ++ (pre ++ '.' :: tld) ++ rest ∧ pre ≠ [] ∧
      (∀ c ∈ pre ++ '.' :: tld, isHostRune c) ∧ 2 ≤ tld.length ∧ (∀ c ∈ tld, isLetter c) ∧
      (rest = [] ∨ ∃ t, rest = '/' :: t) := by
  obtain ⟨pre, tld, rest, hs, hne, hpre, hlen, htld, hrest⟩ :=
    (wsURLPattern_matches_iff s.data).mp ((isValidWebSocketURL_iff s).mp h)
  refine ⟨pre, tld, rest, hs, hne, ?_, hlen, htld, ?_⟩
  · intro c hc
    rcases List.mem_append.mp hc with hc | hc
    · exact hpre c hc
    · rcases List.mem_cons.mp hc with rfl | hc
      · exact Or.inr (Or.inr (Or.inl rfl))
      · exact Or.inl (htld c hc)
  · rcases hrest with rfl | ⟨t, rfl, _⟩
    · exact Or.inl rfl
    · exact Or.inr ⟨t, rfl⟩

/-- The host of an accepted text on which a cut `host ++ rest` is given, `host`
holding no `/`: it is `host` followed by a first part `m` of `rest`. -/
theorem accepted_host (host rest : List Char)
    (h : isValidWebSocketURL ⟨"wss://".data ++ host ++ rest⟩ = true) (hs : '/' ∉ host) :
    ∃ pre tld m rest', pre ++ '.' :: tld = host ++ m ∧ rest = m ++ rest' ∧
      (rest' = [] ∨ ∃ t, rest' = '/' :: t) ∧
      (∀ c ∈ host ++ m, isHostRune c) ∧ 2 ≤ tld.length ∧ (∀ c ∈ tld, isLetter c) := by
  obtain ⟨pre, tld, rest', hd, _, hhost, hlen, htld, hrest'⟩ := accepted_split _ h
  simp only [List.append_assoc, List.append_cancel_left_eq] at hd
  rw [← List.append_assoc] at hd
  obtain ⟨m, hm, hr⟩ := head_prefix_of_split host rest _ rest' hd hs hrest'
  exact ⟨pre, tld, m, rest', hm, hr, hrest', hm ▸ hhost, hlen, htld⟩

/-- When the given rest is empty or starts with `/`, the given host is the host. -/
theorem accepted_host_exact (host rest : List Char)
    (h : isValidWebSocketURL ⟨"wss://".data ++ host ++ rest⟩ = true) (hs : '/' ∉ host)
    (hrest : rest = [] ∨ ∃ t, rest = '/' :: t) :
    ∃ pre tld, pre ++ '.' :: tld = host ∧ 2 ≤ tld.length ∧ (∀ c ∈ tld, isLetter c) := by
  obtain ⟨pre, tld, m, rest', hm, hr, _, hhost, hlen, htld⟩ := accepted_host host rest h hs
  cases m with
  | nil => exact ⟨pre, tld, by simpa using hm, hlen, htld⟩
  | cons x m =>
    exfalso
    rcases hrest with rfl | ⟨t, rfl⟩
    · simp at hr
    · simp only [List.cons_append, List.cons.injEq] at hr
      apply not_isHostRune_slash
      apply hhost
      rw [hr.1]
      simp

theorem eq_false_of_not_true (b : Bool) (h : b = true → False) : b = false := by
  cases b with
  | false => rfl
  | true => exact (h rfl).elim

/-! ## The caches -/

theorem mapSet_same (m : String → Option CacheEntry) (k : String) (e : CacheEntry) :
    mapSet m k e k = some e := by
  simp [mapSet]

theorem mapSet_other (m : String → Option CacheEntry) (k k' : String) (e : CacheEntry)
    (h : k' ≠ k) : mapSet m k e k' = m k' := by
  simp [mapSet, h]

theorem validEntry_of_lt (m : String → Option CacheEntry) (k : String) (e : CacheEntry)
    (now : Nat) (hm : m k = some e) (h : now < e.Expiration) : validEntry m k now = some e := by
  simp [validEntry, hm, h]

theorem validEntry_of_le (m : String → Option CacheEntry) (k : String) (e : CacheEntry)
    (now : Nat) (hm : m k = some e) (h : e.Expiration ≤ now) : validEntry m k now = none := by
  have h' : ¬ now < e.Expiration := by omega
  simp [validEntry, hm, h']

theorem validEntry_some (m : String → Option CacheEntry) (k : String) (e : CacheEntry)
    (now : Nat) (h : validEntry m k now = some e) : m k = some e := by
  unfold validEntry at h
  cases hm : m k with
  | none => rw [hm] at h; simp at h
  | some e' =>
    rw [hm] at h
    by_cases hlt : now < e'.Expiration
    · simpa [hlt] using h
    · simp [hlt] at h

theorem follows_key_injective (a b : String) (h : "follows_" ++ a = "follows_" ++ b) :
    a = b := by
  have h' := congrArg String.data h
  simp only [String.data_append, List.append_cancel_left_eq] at h'
  exact String.ext h'

/-! ## The relay-list resolver -/

theorem addRelayTag_spec (acc : List String × List String) (tag : Tag) (h : RelayAcc acc) :
    RelayAcc (addRelayTag acc tag) ∧
      ∀ u, u ∈ (addRelayTag acc tag).2 ↔
        u ∈ acc.2 ∨ (tag.Value = u ∧ isValidWebSocketURL u = true) := by
  obtain ⟨hnd, hset⟩ := h
  unfold addRelayTag
  by_cases hv : isValidWebSocketURL tag.Value = true
  · by_cases hmem : tag.Value ∈ acc.1
    · simp only [hv, hmem, if_true]
      refine ⟨⟨hnd, hset⟩, fun u => ⟨Or.inl, ?_⟩⟩
      rintro (h | ⟨rfl, _⟩)
      · exact h
      · exact (hset _).mp hmem
    · simp only [hv, hmem, if_true, if_false]
      have hnot : tag.Value ∉ acc.2 := fun hx => hmem ((hset _).mpr hx)
      refine ⟨⟨?_, ?_⟩, ?_⟩
      · rw [List.nodup_append]
        refine ⟨hnd, List.nodup_singleton _, ?_⟩
        intro x hx hx'
        rw [List.mem_singleton] at hx'
        exact hnot (hx' ▸ hx)
      · intro u
        simp only [List.mem_cons, List.mem_append, List.mem_singleton, hset u]
        tauto
      · intro u
        simp only [List.mem_append, List.mem_singleton]
        constructor
        · rintro (h | rfl)
          · exact Or.inl h
          · exact Or.inr ⟨rfl, hv⟩
        · rintro (h | ⟨rfl, _⟩)
          · exact Or.inl h
          · exact Or.inr rfl
  · simp only [hv]
    refine ⟨⟨hnd, hset⟩, fun u => ⟨Or.inl, ?_⟩⟩
    rintro (h | ⟨rfl, hu⟩)
    · exact h
    · exact absurd hu hv

theorem foldl_addRelayTag_spec (tags : List Tag) (acc : List String × List String)
    (h : RelayAcc acc) :
    RelayAcc (tags.foldl addRelayTag acc) ∧
      ∀ u, u ∈ (tags.foldl addRelayTag acc).2 ↔
        u ∈ acc.2 ∨ ∃ tag ∈ tags, tag.Value = u ∧ isValidWebSocketURL u = true := by
  induction tags generalizing acc with
  | nil => simpa using h
  | cons tag tags ih =>
    obtain ⟨h1, hm1⟩ := addRelayTag_spec acc tag h
    obtain ⟨h2, hm2⟩ := ih (addRelayTag acc tag) h1
    refine ⟨h2, fun u => ?_⟩
    rw [List.foldl_cons, hm2, hm1]
    simp only [List.mem_cons, exists_eq_or_imp]
    tauto

theorem relayLoop_spec (received : List Event) (acc : List String × List String)
    (h : RelayAcc acc) :
    RelayAcc (relayLoop received acc) ∧
      ∀ u, u ∈ (relayLoop received acc).2 ↔
        u ∈ acc.2 ∨ ∃ ev ∈ received, ∃ tag ∈ ev.Tags.GetAll ["r"],
          tag.Value = u ∧ isValidWebSocketURL u = true := by
  induction received generalizing acc with
  | nil => simpa [relayLoop] using h
  | cons ev received ih =>
    obtain ⟨h1, hm1⟩ := foldl_addRelayTag_spec (ev.Tags.GetAll ["r"]) acc h
    obtain ⟨h2, hm2⟩ := ih _ h1
    refine ⟨h2, fun u => ?_⟩
    have hstep : relayLoop (ev :: received) acc =
        relayLoop received ((ev.Tags.GetAll ["r"]).foldl addRelayTag acc) := rfl
    rw [hstep, hm2, hm1]
    constructor
    · rintro ((h | ⟨tag, ht, hu⟩) | ⟨e, he, hx⟩)
      · exact Or.inl h
      · exact Or.inr ⟨ev, List.mem_cons_self _ _, tag, ht, hu⟩
      · exact Or.inr ⟨e, List.mem_cons_of_mem _ he, hx⟩
    · rintro (h | ⟨e, he, hx⟩)
      · exact Or.inl (Or.inl h)
      · rcases List.mem_cons.mp he with rfl | he
        · exact Or.inl (Or.inr hx)
        · exact Or.inr ⟨e, he, hx⟩

theorem relayAcc_nil : RelayAcc ([], []) := by
  simp [RelayAcc]

/-- What `GetFollowsRelays` does when the cache check fails and the list of discovery
relays is not empty. -/
theorem GetFollowsRelays_miss (npub : String) (follows discoveryRelays : List String)
    (now₁ now₂ : Nat) (received : List Event) (st : State)
    (hmiss : validEntry st.relayCache ("follows_relays_" ++ npub) now₁ = none)
    (hne : discoveryRelays ≠ []) :
    GetFollowsRelays npub follows discoveryRelays now₁ now₂ received st =
      (Outcome.returned (relayLoop received ([], [])).2,
        ⟨mapSet st.relayCache ("follows_relays_" ++ npub)
            ⟨(relayLoop received ([], [])).2, now₂ + cacheDuration⟩,
          st.followCache,
          st.subscriptions ++ [⟨resolverCtx, discoveryRelays, [relayFilter follows]⟩]⟩) := by
  cases discoveryRelays with
  | nil => exact absurd rfl hne
  | cons d ds =>
    simp only [GetFollowsRelays, hmiss]
    rfl

/-- What `GetFollowsRelays` does when the cache check fails and there is no discovery
relay. -/
theorem GetFollowsRelays_miss_blocked (npub : String) (follows : List String)
    (now₁ now₂ : Nat) (received : List Event) (st : State)
    (hmiss : validEntry st.relayCache ("follows_relays_" ++ npub) now₁ = none) :
    GetFollowsRelays npub follows [] now₁ now₂ received st =
      (Outcome.blocked,
        ⟨st.relayCache, st.followCache,
          st.subscriptions ++ [⟨resolverCtx, [], [relayFilter follows]⟩]⟩) := by
  simp only [GetFollowsRelays, hmiss]
  rfl

/-! ## The tags a one-item `GetAll` selects -/

theorem nameBeginsWith_iff (pre : String) (tag : Tag) :
    Tag.nameBeginsWith pre tag = true ↔ ∃ suffix rest, tag = (pre ++ suffix) :: rest := by
  cases tag with
  | nil => simp [Tag.nameBeginsWith]
  | cons name rest =>
    simp only [Tag.nameBeginsWith, List.isPrefixOf_iff_prefix, List.cons.injEq]
    constructor
    · rintro ⟨t, ht⟩
      exact ⟨⟨t⟩, rest, String.ext (by simp [String.data_append, ht]), rfl⟩
    · rintro ⟨suffix, _, rfl, _⟩
      exact ⟨suffix.data, by simp [String.data_append]⟩

theorem GetAll_single (tags : Tags) (pre : String) :
    Tags.GetAll tags [pre] = tags.filter (Tag.nameBeginsWith pre) := by
  unfold Tags.GetAll
  apply List.filter_congr
  intro tag _
  cases tag with
  | nil => rfl
  | cons name rest => rfl

theorem mem_GetAll_single (tags : Tags) (pre : String) (tag : Tag) :
    tag ∈ Tags.GetAll tags [pre] ↔
      ∃ suffix rest, tag = (pre ++ suffix) :: rest ∧ (pre ++ suffix) :: rest ∈ tags := by
  rw [GetAll_single, List.mem_filter, nameBeginsWith_iff]
  constructor
  · rintro ⟨hmem, suffix, rest, rfl⟩
    exact ⟨suffix, rest, rfl, hmem⟩
  · rintro ⟨suffix, rest, rfl, hmem⟩
    exact ⟨hmem, suffix, rest, rfl⟩

theorem GetAll_single_eq_nil (tags : Tags) (pre : String) :
    Tags.GetAll tags [pre] = [] ↔ ∀ tag ∈ tags, Tag.nameBeginsWith pre tag = false := by
  rw [GetAll_single, List.filter_eq_nil_iff]
  simp

theorem GetAll_single_ne_nil (tags : Tags) (pre : String) :
    Tags.GetAll tags [pre] ≠ [] ↔ ∃ tag ∈ tags, Tag.nameBeginsWith pre tag = true := by
  rw [Ne, GetAll_single_eq_nil]
  simp

/-! ## The URL check -/

/-- C1: `isValidWebSocketURL` accepts `wss://relay.example.com` and
`wss://relay.example.com/path`, and rejects `ws://relay.example.com`, `wss://` and
`not-a-url`. -/
theorem isValidWebSocketURL_examples :
    isValidWebSocketURL "wss://relay.example.com" = true ∧
    isValidWebSocketURL "wss://relay.example.com/path" = true ∧
    isValidWebSocketURL "ws://relay.example.com" = false ∧
    isValidWebSocketURL "wss://" = false ∧
    isValidWebSocketURL "not-a-url" = false := by
  refine ⟨?_, ?_, ?_, ?_, ?_⟩ <;> decide

/-- C10: every accepted string is `wss://` followed by a host and a rest, where the host
is non-empty, is made of ASCII letters, digits, `.` and `-` only and ends in a `.`
followed by at least two ASCII letters, and the rest is empty or begins with `/`.
Consequently a string with an explicit port after its host, a string whose host has a
single label and a string whose host is a dotted number are all rejected, among them
`wss://relay.example.com:443`, `wss://localhost` and `wss://127.0.0.1`, and the loop of
`GetFollowsRelays` puts accepted strings only into the relay list. -/
theorem isValidWebSocketURL_shape :
    (∀ s : String, isValidWebSocketURL s = true →
      ∃ host rest : List Char, s.data = "wss://".data ++ host ++ rest ∧ host ≠ [] ∧
        (∀ c ∈ host, isHostRune c) ∧
        (∃ pre tld, host = pre ++ '.' :: tld ∧ 2 ≤ tld.length ∧ ∀ c ∈ tld, isLetter c) ∧
        (rest = [] ∨ ∃ t, rest = '/' :: t)) ∧
    (∀ host port rest : List Char, '/' ∉ host →
      isValidWebSocketURL ⟨"wss://".data ++ host ++ (':' :: port ++ rest)⟩ = false) ∧
    (∀ host rest : List Char, '.' ∉ host → '/' ∉ host → (rest = [] ∨ ∃ t, rest = '/' :: t) →
      isValidWebSocketURL ⟨"wss://".data ++ host ++ rest⟩ = false) ∧
    (∀ host rest : List Char, (∀ c ∈ host, isDigit c ∨ c = '.') →
      (rest = [] ∨ ∃ t, rest = '/' :: t) →
      isValidWebSocketURL ⟨"wss://".data ++ host ++ rest⟩ = false) ∧
    isValidWebSocketURL "wss://relay.example.com:443" = false ∧
    isValidWebSocketURL "wss://localhost" = false ∧
    isValidWebSocketURL "wss://127.0.0.1" = false ∧
    (∀ (received : List Event) (url : String),
      url ∈ (relayLoop received ([], [])).2 → isValidWebSocketURL url = true) := by
  refine ⟨?_, ?_, ?_, ?_, by decide, by decide, by decide, ?_⟩
  · intro s h
    obtain ⟨pre, tld, rest, hs, _, hhost, hlen, htld, hrest⟩ := accepted_split s h
    exact ⟨pre ++ '.' :: tld, rest, hs, by simp, hhost, ⟨pre, tld, rfl, hlen, htld⟩, hrest⟩
  · intro host port rest hs
    apply eq_false_of_not_true
    intro h
    obtain ⟨pre, tld, m, rest', _, hr, hrest', hhost, _, _⟩ := accepted_host host _ h hs
    cases m with
    | nil =>
      rcases hrest' with rfl | ⟨t, rfl⟩
      · simp at hr
      · simp at hr
    | cons x m =>
      simp only [List.cons_append, List.cons.injEq] at hr
      apply not_isHostRune_colon
      apply hhost
      rw [hr.1]
      simp
  · intro host rest hdot hs hrest
    apply eq_false_of_not_true
    intro h
    obtain ⟨pre, tld, hh, _, _⟩ := accepted_host_exact host rest h hs hrest
    apply hdot
    rw [← hh]
    simp
  · intro host rest hnum hrest
    apply eq_false_of_not_true
    intro h
    have hs : '/' ∉ host := by
      intro hmem
      rcases hnum _ hmem with hd | hd
      · simp [isDigit] at hd
      · exact absurd hd (by decide)
    obtain ⟨pre, tld, hh, hlen, htld⟩ := accepted_host_exact host rest h hs hrest
    cases tld with
    | nil => simp at hlen
    | cons c tld =>
      have hl := htld c (List.mem_cons_self c tld)
      have hc : c ∈ host := by rw [← hh]; simp
      rcases hnum c hc with hd | hd
      · simp only [isLetter, isDigit] at hl hd
        omega
      · rw [hd] at hl
        simp [isLetter] at hl
  · intro received url hurl
    obtain ⟨_, _, _, _, _, hvalid⟩ :=
      ((relayLoop_spec received ([], []) relayAcc_nil).2 url).mp hurl |>.resolve_left (by simp)
    exact hvalid

/-- The shape of C10 at `wss://relay.example.com`. -/
theorem isValidWebSocketURL_shape_witness :
    isValidWebSocketURL "wss://relay.example.com" = true ∧
    ∃ host rest : List Char,
      "wss://relay.example.com".data = "wss://".data ++ host ++ rest ∧ host ≠ [] ∧
        (∀ c ∈ host, isHostRune c) ∧
        (∃ pre tld, host = pre ++ '.' :: tld ∧ 2 ≤ tld.length ∧ ∀ c ∈ tld, isLetter c) ∧
        (rest = [] ∨ ∃ t, rest = '/' :: t) :=
  ⟨by decide, isValidWebSocketURL_shape.1 "wss://relay.example.com" (by decide)⟩

/-- The items of the list `relayLoop` builds: the valid values of the tags whose name
begins with `r`. -/
theorem mem_relayLoop_iff (received : List Event) (url : String) :
    url ∈ (relayLoop received ([], [])).2 ↔
      ∃ ev ∈ received, ∃ suffix rest, (("r" ++ suffix) :: rest) ∈ ev.Tags ∧
        Tag.Value (("r" ++ suffix) :: rest) = url ∧ isValidWebSocketURL url = true := by
  rw [(relayLoop_spec received ([], []) relayAcc_nil).2 url]
  constructor
  · rintro (h | ⟨ev, hev, tag, htag, hv, hvalid⟩)
    · simp at h
    · obtain ⟨suffix, rest, rfl, hmem⟩ := (mem_GetAll_single ev.Tags "r" tag).mp htag
      exact ⟨ev, hev, suffix, rest, hmem, hv, hvalid⟩
  · rintro ⟨ev, hev, suffix, rest, hmem, hv, hvalid⟩
    exact Or.inr ⟨ev, hev, _, (mem_GetAll_single ev.Tags "r" _).mpr ⟨suffix, rest, rfl, hmem⟩,
      hv, hvalid⟩

/-- C2, as the code has it: on a cache miss with at least one discovery relay, whatever
events were received, `GetFollowsRelays` returns a list without duplicates in which a
URL occurs if and only if it passes `isValidWebSocketURL` and is the value of a tag,
of some received event, whose name begins with `r` (the name `r` itself included). When
the events are one advertising `wss://r1.example` and one advertising
`wss://r1.example` and `wss://r2.example`, in either order, the list is
`wss://r1.example`, `wss://r2.example`. -/
theorem GetFollowsRelays_union (npub : String) (follows discoveryRelays : List String)
    (now₁ now₂ : Nat) (received : List Event) (st : State)
    (hmiss : validEntry st.relayCache ("follows_relays_" ++ npub) now₁ = none)
    (hne : discoveryRelays ≠ []) :
    ∃ relays st',
      GetFollowsRelays npub follows discoveryRelays now₁ now₂ received st =
        (Outcome.returned relays, st') ∧
      relays.Nodup ∧
      (∀ url, url ∈ relays ↔
        ∃ ev ∈ received, ∃ suffix rest, (("r" ++ suffix) :: rest) ∈ ev.Tags ∧
          Tag.Value (("r" ++ suffix) :: rest) = url ∧ isValidWebSocketURL url = true) ∧
      (∀ evB evC : Event, evB.Tags = [["r", "wss://r1.example"]] →
        evC.Tags = [["r", "wss://r1.example"], ["r", "wss://r2.example"]] →
        received = [evB, evC] ∨ received = [evC, evB] →
        relays = ["wss://r1.example", "wss://r2.example"]) := by
  refine ⟨_, _,
    GetFollowsRelays_miss npub follows discoveryRelays now₁ now₂ received st hmiss hne,
    (relayLoop_spec received ([], []) relayAcc_nil).1.1, mem_relayLoop_iff received, ?_⟩
  rintro ⟨pkB, kB, tagsB⟩ ⟨pkC, kC, tagsC⟩ hB hC hrec
  simp only at hB hC
  subst hB hC
  rcases hrec with rfl | rfl
  · rfl
  · rfl

/-- The statement of C2 as amended on the two events of the scenario, from the initial
state. -/
theorem GetFollowsRelays_union_witness :
    validEntry State.init.relayCache ("follows_relays_" ++ "A") 0 = none ∧
    ["wss://discovery.example"] ≠ [] ∧
    ∃ relays st',
      GetFollowsRelays "A" ["B", "C"] ["wss://discovery.example"] 0 1
          [⟨"B", 10002, [["r", "wss://r1.example"]]⟩,
            ⟨"C", 10002, [["r", "wss://r1.example"], ["r", "wss://r2.example"]]⟩]
          State.init = (Outcome.returned relays, st') ∧
      relays.Nodup :=
  ⟨rfl, by decide,
    match GetFollowsRelays_union "A" ["B", "C"] ["wss://discovery.example"] 0 1
      [⟨"B", 10002, [["r", "wss://r1.example"]]⟩,
        ⟨"C", 10002, [["r", "wss://r1.example"], ["r", "wss://r2.example"]]⟩]
      State.init rfl (by decide) with
    | ⟨relays, st', h, hnd, _⟩ => ⟨relays, st', h, hnd⟩⟩

/-- C2 fails as stated: a tag named `relay` is not an `r` tag, yet its value enters the
list; and with no discovery relay the call does not return a list at all. -/
theorem GetFollowsRelays_takes_relay_tag :
    validEntry State.init.relayCache ("follows_relays_" ++ "A") 0 = none ∧
    (GetFollowsRelays "A" ["B"] ["wss://discovery.example"] 0 1
      [⟨"B", 10002, [["relay", "wss://pfx.example"]]⟩] State.init).1 =
      Outcome.returned ["wss://pfx.example"] ∧
    (∀ tag ∈ ([["relay", "wss://pfx.example"]] : Tags), tag.head? ≠ some "r") ∧
    (GetFollowsRelays "A" ["B"] [] 0 1 [] State.init).1 = Outcome.blocked := by
  refine ⟨rfl, ?_, ?_, ?_⟩ <;> decide

/-- C4, as the code has it: with an empty follow list, no valid cache entry and at least
one discovery relay, `GetFollowsRelays` opens one subscription on the discovery relays,
with a filter of kind `KindRelayListMetadata` and no author; it returns the
duplicate-free list of the valid values of the tags, of the events received, whose name
begins with `r`, which is the empty list when no event is received, and caches that
list for one hour. -/
theorem GetFollowsRelays_empty_follows (npub : String) (discoveryRelays : List String)
    (now₁ now₂ : Nat) (received : List Event) (st : State)
    (hmiss : validEntry st.relayCache ("follows_relays_" ++ npub) now₁ = none)
    (hne : discoveryRelays ≠ []) :
    ∃ relays st',
      GetFollowsRelays npub [] discoveryRelays now₁ now₂ received st =
        (Outcome.returned relays, st') ∧
      st'.subscriptions = st.subscriptions ++
        [⟨Context.WithTimeout Context.Background (1 * Second), discoveryRelays,
          [{ Kinds := [KindRelayListMetadata], Authors := [] }]⟩] ∧
      relays.Nodup ∧
      (∀ url, url ∈ relays ↔
        ∃ ev ∈ received, ∃ suffix rest, (("r" ++ suffix) :: rest) ∈ ev.Tags ∧
          Tag.Value (("r" ++ suffix) :: rest) = url ∧ isValidWebSocketURL url = true) ∧
      (received = [] → relays = []) ∧
      st'.relayCache ("follows_relays_" ++ npub) = some ⟨relays, now₂ + 3600 * Second⟩ ∧
      st'.followCache = st.followCache := by
  refine ⟨_, _,
    GetFollowsRelays_miss npub [] discoveryRelays now₁ now₂ received st hmiss hne,
    rfl, (relayLoop_spec received ([], []) relayAcc_nil).1.1, mem_relayLoop_iff received,
    ?_, ?_, rfl⟩
  · rintro rfl
    rfl
  · show mapSet st.relayCache _ _ _ = _
    rw [mapSet_same]
    simp [cacheDuration, Hour]

/-- The statement of C4 as amended, from the initial state, with one discovery relay
and no event received. -/
theorem GetFollowsRelays_empty_follows_witness :
    validEntry State.init.relayCache ("follows_relays_" ++ "A") 0 = none ∧
    ["wss://discovery.example"] ≠ [] ∧
    ∃ relays st',
      GetFollowsRelays "A" [] ["wss://discovery.example"] 0 1 [] State.init =
        (Outcome.returned relays, st') ∧
      st'.subscriptions = State.init.subscriptions ++
        [⟨Context.WithTimeout Context.Background (1 * Second), ["wss://discovery.example"],
          [{ Kinds := [KindRelayListMetadata], Authors := [] }]⟩] ∧
      relays = [] ∧
      st'.relayCache ("follows_relays_" ++ "A") = some ⟨relays, 1 + 3600 * Second⟩ :=
  ⟨rfl, by decide,
    match GetFollowsRelays_empty_follows "A" ["wss://discovery.example"] 0 1 [] State.init
      rfl (by decide) with
    | ⟨relays, st', h, hs, _, _, he, hc, _⟩ => ⟨relays, st', h, hs, he rfl, hc⟩⟩

/-- C4 fails as stated: from the initial state, with an empty follow list, the call
opens a subscription on the discovery relays and returns the relay advertised by the
event that subscription delivers; with no discovery relay it does not return. -/
theorem GetFollowsRelays_subscribes_without_follows :
    validEntry State.init.relayCache ("follows_relays_" ++ "A") 0 = none ∧
    (GetFollowsRelays "A" [] ["wss://discovery.example"] 0 1
      [⟨"B", 10002, [["r", "wss://r1.example"]]⟩] State.init).1 =
      Outcome.returned ["wss://r1.example"] ∧
    (GetFollowsRelays "A" [] ["wss://discovery.example"] 0 1
      [⟨"B", 10002, [["r", "wss://r1.example"]]⟩] State.init).2.subscriptions =
      [⟨Context.WithTimeout Context.Background 1000000000, ["wss://discovery.example"],
        [{ Kinds := [10002], Authors := [] }]⟩] ∧
    (GetFollowsRelays "A" [] [] 0 1 [] State.init).1 = Outcome.blocked := by
  refine ⟨rfl, ?_, ?_, ?_⟩ <;> decide

/-! ## The follow resolver -/

theorem foldl_append_value (tags : List Tag) (acc : List String) :
    tags.foldl (fun a tag => a ++ [tag.Value]) acc = acc ++ tags.map Tag.Value := by
  induction tags generalizing acc with
  | nil => simp
  | cons tag tags ih => simp [ih]

theorem followLoop_of_none (received : List Event)
    (h : ∀ e ∈ received, e.Tags.GetAll ["p"] = []) : followLoop received [] = [] := by
  induction received with
  | nil => rfl
  | cons ev received ih =>
    have hev := h ev (List.mem_cons_self ev received)
    simp only [followLoop, hev, List.foldl_nil, List.length_nil, gt_iff_lt, lt_self_iff_false,
      if_false]
    exact ih (fun e he => h e (List.mem_cons_of_mem ev he))

theorem followLoop_first (before : List Event) (ev : Event) (after : List Event)
    (hbefore : ∀ e ∈ before, e.Tags.GetAll ["p"] = []) (hev : ev.Tags.GetAll ["p"] ≠ []) :
    followLoop (before ++ ev :: after) [] = (ev.Tags.GetAll ["p"]).map Tag.Value := by
  induction before with
  | nil =>
    have hpos : 0 < ((ev.Tags.GetAll ["p"]).map Tag.Value).length := by
      rw [List.length_map]
      exact List.length_pos.mpr hev
    simp only [List.nil_append, followLoop, foldl_append_value, gt_iff_lt, hpos, if_true]
  | cons e before ih =>
    have he := hbefore e (List.mem_cons_self e before)
    simp only [List.cons_append, followLoop, he, List.foldl_nil, List.length_nil, gt_iff_lt,
      lt_self_iff_false, if_false]
    exact ih (fun x hx => hbefore x (List.mem_cons_of_mem e hx))

/-- The events received either have no selected tag at all, or split at the first one
that has. -/
theorem split_first_tagged (received : List Event) :
    (∀ e ∈ received, e.Tags.GetAll ["p"] = []) ∨
      ∃ before ev after, received = before ++ ev :: after ∧
        (∀ e ∈ before, e.Tags.GetAll ["p"] = []) ∧ ev.Tags.GetAll ["p"] ≠ [] := by
  induction received with
  | nil => left; simp
  | cons ev received ih =>
    by_cases hev : ev.Tags.GetAll ["p"] = []
    · rcases ih with h | ⟨before, x, after, rfl, hb, hx⟩
      · left
        intro e he
        rcases List.mem_cons.mp he with rfl | he
        · exact hev
        · exact h e he
      · right
        refine ⟨ev :: before, x, after, rfl, ?_, hx⟩
        intro e he
        rcases List.mem_cons.mp he with rfl | he
        · exact hev
        · exact hb e he
    · exact Or.inr ⟨[], ev, received, rfl, by simp, hev⟩

/-- The list `followLoop` builds when some received event has a tag whose name begins
with `p`: the values of those tags of the first such event. -/
theorem followLoop_first_named (before : List Event) (ev : Event) (after : List Event)
    (hbefore : ∀ e ∈ before, ∀ tag ∈ e.Tags, Tag.nameBeginsWith "p" tag = false)
    (hev : ∃ tag ∈ ev.Tags, Tag.nameBeginsWith "p" tag = true) :
    followLoop (before ++ ev :: after) [] =
      (ev.Tags.filter (Tag.nameBeginsWith "p")).map Tag.Value := by
  rw [followLoop_first before ev after
    (fun e he => (GetAll_single_eq_nil e.Tags "p").mpr (hbefore e he))
    ((GetAll_single_ne_nil ev.Tags "p").mpr hev), GetAll_single]

/-- The list `followLoop` builds when no received event has a tag whose name begins
with `p`. -/
theorem followLoop_none_named (received : List Event)
    (hnone : ∀ e ∈ received, ∀ tag ∈ e.Tags, Tag.nameBeginsWith "p" tag = false) :
    followLoop received [] = [] :=
  followLoop_of_none received
    (fun e he => (GetAll_single_eq_nil e.Tags "p").mpr (hnone e he))

theorem count_filter_values (tags : List Tag) (q : Tag → Bool) (x : String) :
    ((tags.filter q).map Tag.Value).count x =
      (tags.filter (fun tag => q tag && decide (tag.Value = x))).length := by
  induction tags with
  | nil => rfl
  | cons tag tags ih =>
    by_cases hq : q tag = true
    · by_cases hx : tag.Value = x
      · simp [List.filter_cons, hq, hx, ih]
      · simp [List.filter_cons, hq, hx, ih, List.count_cons]
    · simp [List.filter_cons, hq, ih]

/-- What `GetFollows` does when the cache check fails, the token decodes and the list
of discovery relays is not empty. -/
theorem GetFollows_miss (Decode : Decoder) (npub : String) (discoveryRelays : List String)
    (now₁ now₂ : Nat) (received : List Event) (st : State) (pk : String)
    (hmiss : validEntry st.followCache ("follows_" ++ npub) now₁ = none)
    (hdec : nPubToPubkey Decode npub = Outcome.returned pk)
    (hne : discoveryRelays ≠ []) :
    GetFollows Decode npub discoveryRelays now₁ now₂ received st =
      (Outcome.returned (followLoop received []),
        ⟨st.relayCache,
          mapSet st.followCache ("follows_" ++ npub)
            ⟨followLoop received [], now₂ + cacheDuration⟩,
          st.subscriptions ++ [⟨resolverCtx, discoveryRelays, [followFilter pk]⟩]⟩) := by
  cases discoveryRelays with
  | nil => exact absurd rfl hne
  | cons d ds =>
    simp only [GetFollows, hmiss, hdec]
    rfl

/-- What `GetFollows` does when the cache check fails, the token decodes and there is no
discovery relay. -/
theorem GetFollows_miss_blocked (Decode : Decoder) (npub : String)
    (now₁ now₂ : Nat) (received : List Event) (st : State) (pk : String)
    (hmiss : validEntry st.followCache ("follows_" ++ npub) now₁ = none)
    (hdec : nPubToPubkey Decode npub = Outcome.returned pk) :
    GetFollows Decode npub [] now₁ now₂ received st =
      (Outcome.blocked,
        ⟨st.relayCache, st.followCache,
          st.subscriptions ++ [⟨resolverCtx, [], [followFilter pk]⟩]⟩) := by
  simp only [GetFollows, hmiss, hdec]
  rfl

/-- What `GetFollows` does when the cache check fails and the token does not decode. -/
theorem GetFollows_miss_panic (Decode : Decoder) (npub : String) (discoveryRelays : List String)
    (now₁ now₂ : Nat) (received : List Event) (st : State) (err : String)
    (hmiss : validEntry st.followCache ("follows_" ++ npub) now₁ = none)
    (hdec : nPubToPubkey Decode npub = Outcome.panicked err) :
    GetFollows Decode npub discoveryRelays now₁ now₂ received st = (Outcome.panicked err, st) := by
  simp only [GetFollows, hmiss, hdec]

theorem nPubToPubkey_ne_blocked (Decode : Decoder) (npub : String) :
    nPubToPubkey Decode npub ≠ Outcome.blocked := by
  unfold nPubToPubkey
  rcases Decode npub with err | ⟨kind, v | _⟩ <;> simp

/-- What `GetFollows` does when the cache check succeeds. -/
theorem GetFollows_hit (Decode : Decoder) (npub : String) (discoveryRelays : List String)
    (now₁ now₂ : Nat) (received : List Event) (st : State) (entry : CacheEntry)
    (hhit : validEntry st.followCache ("follows_" ++ npub) now₁ = some entry) :
    GetFollows Decode npub discoveryRelays now₁ now₂ received st =
      (Outcome.returned entry.Data, st) := by
  simp only [GetFollows, hhit]

/-- C3: after a call of `GetFollows` for `npub` that misses the cache and returns (its
token decodes and there is a discovery relay to close the subscription), the follow
cache holds for `npub` the returned list, empty or not, with the write time plus one
hour as expiration. In every later state that still holds this entry, a call made
strictly before the expiration returns the same list and changes nothing, so it opens
no subscription; a call made at or after the expiration opens a new subscription on
the discovery relays, and returns when there is at least one of them. -/
theorem GetFollows_cache_ttl (Decode : Decoder) (npub : String) (discoveryRelays : List String)
    (now₁ now₂ : Nat) (received : List Event) (st : State) (pk : String)
    (hmiss : validEntry st.followCache ("follows_" ++ npub) now₁ = none)
    (hdec : nPubToPubkey Decode npub = Outcome.returned pk)
    (hne : discoveryRelays ≠ []) :
    ∃ follows st',
      GetFollows Decode npub discoveryRelays now₁ now₂ received st =
        (Outcome.returned follows, st') ∧
      st'.followCache ("follows_" ++ npub) = some ⟨follows, now₂ + 3600 * Second⟩ ∧
      (∀ (later : State) (discovery' : List String) (now₃ now₄ : Nat) (received' : List Event),
        later.followCache ("follows_" ++ npub) = st'.followCache ("follows_" ++ npub) →
        now₃ < now₂ + 3600 * Second →
        GetFollows Decode npub discovery' now₃ now₄ received' later =
          (Outcome.returned follows, later)) ∧
      (∀ (later : State) (discovery' : List String) (now₃ now₄ : Nat) (received' : List Event),
        later.followCache ("follows_" ++ npub) = st'.followCache ("follows_" ++ npub) →
        now₂ + 3600 * Second ≤ now₃ →
        ∃ out later',
          GetFollows Decode npub discovery' now₃ now₄ received' later = (out, later') ∧
          later'.subscriptions = later.subscriptions ++
            [⟨Context.WithTimeout Context.Background (1 * Second), discovery',
              [{ Kinds := [KindFollowList], Authors := [pk], Limit := 1 }]⟩] ∧
          (discovery' ≠ [] → ∃ follows', out = Outcome.returned follows')) := by
  have hdur : cacheDuration = 3600 * Second := by simp [cacheDuration, Hour]
  refine ⟨_, _,
    GetFollows_miss Decode npub discoveryRelays now₁ now₂ received st pk hmiss hdec hne,
    ?_, ?_, ?_⟩
  · show mapSet st.followCache _ _ _ = _
    rw [mapSet_same, hdur]
  · intro later discovery' now₃ now₄ received' hsame hlt
    have hentry : later.followCache ("follows_" ++ npub) =
        some ⟨followLoop received [], now₂ + 3600 * Second⟩ := by
      rw [hsame]
      show mapSet st.followCache _ _ _ = _
      rw [mapSet_same, hdur]
    exact GetFollows_hit Decode npub discovery' now₃ now₄ received' later _
      (validEntry_of_lt _ _ _ _ hentry hlt)
  · intro later discovery' now₃ now₄ received' hsame hle
    have hentry : later.followCache ("follows_" ++ npub) =
        some ⟨followLoop received [], now₂ + 3600 * Second⟩ := by
      rw [hsame]
      show mapSet st.followCache _ _ _ = _
      rw [mapSet_same, hdur]
    have hmiss' := validEntry_of_le _ _ _ _ hentry hle
    cases discovery' with
    | nil =>
      exact ⟨_, _, GetFollows_miss_blocked Decode npub now₃ now₄ received' later pk hmiss' hdec,
        rfl, fun h => absurd rfl h⟩
    | cons d ds =>
      exact ⟨_, _, GetFollows_miss Decode npub (d :: ds) now₃ now₄ received' later pk hmiss'
        hdec (by simp), rfl, fun _ => ⟨_, rfl⟩⟩

/-- The statement of C3 from the initial state, for a decoder that accepts the token. -/
theorem GetFollows_cache_ttl_witness :
    validEntry State.init.followCache ("follows_" ++ "npub1a") 5 = none ∧
    ["wss://discovery.example"] ≠ [] ∧
    ∃ follows st',
      GetFollows (fun _ => Except.ok ("npub", DecodedValue.str "a")) "npub1a"
          ["wss://discovery.example"] 5 6 [] State.init = (Outcome.returned follows, st') ∧
      st'.followCache ("follows_" ++ "npub1a") = some ⟨follows, 6 + 3600 * Second⟩ :=
  ⟨rfl, by decide,
    match GetFollows_cache_ttl (fun _ => Except.ok ("npub", DecodedValue.str "a")) "npub1a"
      ["wss://discovery.example"] 5 6 [] State.init "a" rfl rfl (by decide) with
    | ⟨follows, st', h, hc, _⟩ => ⟨follows, st', h, hc⟩⟩

/-- C8, as the code has it: on a cache miss with a decodable token and at least one
discovery relay, whatever events were received, `GetFollows` returns the values, in
tag order, of all the tags whose name begins with `p` (the name `p` itself included) of
the first received event that has such a tag, whatever events come after it; it returns
the empty list when no received event has such a tag, in particular when no event is
received. -/
theorem GetFollows_first_event (Decode : Decoder) (npub : String)
    (discoveryRelays : List String) (now₁ now₂ : Nat) (received : List Event) (st : State)
    (pk : String)
    (hmiss : validEntry st.followCache ("follows_" ++ npub) now₁ = none)
    (hdec : nPubToPubkey Decode npub = Outcome.returned pk)
    (hne : discoveryRelays ≠ []) :
    (∀ tag : Tag, Tag.nameBeginsWith "p" tag = true ↔
      ∃ suffix rest, tag = ("p" ++ suffix) :: rest) ∧
    (∀ before ev after, received = before ++ ev :: after →
      (∀ e ∈ before, ∀ tag ∈ e.Tags, Tag.nameBeginsWith "p" tag = false) →
      (∃ tag ∈ ev.Tags, Tag.nameBeginsWith "p" tag = true) →
      (GetFollows Decode npub discoveryRelays now₁ now₂ received st).1 =
        Outcome.returned ((ev.Tags.filter (Tag.nameBeginsWith "p")).map Tag.Value)) ∧
    ((∀ e ∈ received, ∀ tag ∈ e.Tags, Tag.nameBeginsWith "p" tag = false) →
      (GetFollows Decode npub discoveryRelays now₁ now₂ received st).1 = Outcome.returned []) ∧
    (received = [] →
      (GetFollows Decode npub discoveryRelays now₁ now₂ received st).1 = Outcome.returned []) := by
  rw [GetFollows_miss Decode npub discoveryRelays now₁ now₂ received st pk hmiss hdec hne]
  refine ⟨nameBeginsWith_iff "p", ?_, ?_, ?_⟩
  · rintro before ev after rfl hbefore hev
    show Outcome.returned (followLoop (before ++ ev :: after) []) = _
    rw [followLoop_first_named before ev after hbefore hev]
  · intro hnone
    show Outcome.returned (followLoop received []) = _
    rw [followLoop_none_named received hnone]
  · rintro rfl
    rfl

/-- The statement of C8 as amended on three events, the second being the first with
tags named `p`. -/
theorem GetFollows_first_event_witness :
    validEntry State.init.followCache ("follows_" ++ "npub1a") 5 = none ∧
    ["wss://discovery.example"] ≠ [] ∧
    (GetFollows (fun _ => Except.ok ("npub", DecodedValue.str "a")) "npub1a"
      ["wss://discovery.example"] 5 6
      ([⟨"a", 3, [["e", "x"]]⟩] ++
        ⟨"a", 3, [["p", "b"], ["e", "y"], ["p", "c"]]⟩ :: [⟨"a", 3, [["p", "d"]]⟩])
      State.init).1 = Outcome.returned ["b", "c"] :=
  ⟨rfl, by decide,
    (GetFollows_first_event (fun _ => Except.ok ("npub", DecodedValue.str "a")) "npub1a"
      ["wss://discovery.example"] 5 6
      ([⟨"a", 3, [["e", "x"]]⟩] ++
        ⟨"a", 3, [["p", "b"], ["e", "y"], ["p", "c"]]⟩ :: [⟨"a", 3, [["p", "d"]]⟩])
      State.init "a" rfl rfl (by decide)).2.1 [⟨"a", 3, [["e", "x"]]⟩]
        ⟨"a", 3, [["p", "b"], ["e", "y"], ["p", "c"]]⟩ [⟨"a", 3, [["p", "d"]]⟩] rfl
        (by decide) (by decide)⟩

/-- C8 fails as stated: the value of a tag named `pubkey`, which is not a `p` tag, is
returned along with the value of the `p` tag; an event whose only tag is named `proxy`
counts as the first event and hides the `p` tags of the next one; and with no discovery
relay the call does not return. -/
theorem GetFollows_takes_pubkey_tag :
    validEntry State.init.followCache ("follows_" ++ "npub1a") 5 = none ∧
    (GetFollows (fun _ => Except.ok ("npub", DecodedValue.str "a")) "npub1a"
      ["wss://discovery.example"] 5 6 [⟨"a", 3, [["pubkey", "zz"], ["p", "b"]]⟩]
      State.init).1 = Outcome.returned ["zz", "b"] ∧
    (([["pubkey", "zz"], ["p", "b"]] : Tags).filter
      (fun tag => decide (tag.head? = some "p"))).map Tag.Value = ["b"] ∧
    (GetFollows (fun _ => Except.ok ("npub", DecodedValue.str "a")) "npub1a"
      ["wss://discovery.example"] 5 6
      [⟨"a", 3, [["proxy", "https://bridge.example/1"]]⟩, ⟨"a", 3, [["p", "b"], ["p", "c"]]⟩]
      State.init).1 = Outcome.returned ["https://bridge.example/1"] ∧
    (GetFollows (fun _ => Except.ok ("npub", DecodedValue.str "a")) "npub1a"
      [] 5 6 [] State.init).1 = Outcome.blocked := by
  refine ⟨rfl, ?_, ?_, ?_, ?_⟩ <;> decide

/-- C6, as the code has it: `GetFollows` removes no duplicate. On a cache miss with a
decodable token and at least one discovery relay, the list it returns holds an
identity as many times as the first received event that has a tag whose name begins
with `p` has such tags with that identity as value, and is empty when no received event
has such a tag; so it holds no identity more than once exactly when that event has no
two such tags with the same value. -/
theorem GetFollows_multiplicity (Decode : Decoder) (npub : String)
    (discoveryRelays : List String) (now₁ now₂ : Nat) (received : List Event) (st : State)
    (pk : String)
    (hmiss : validEntry st.followCache ("follows_" ++ npub) now₁ = none)
    (hdec : nPubToPubkey Decode npub = Outcome.returned pk)
    (hne : discoveryRelays ≠ []) :
    ∃ follows st',
      GetFollows Decode npub discoveryRelays now₁ now₂ received st =
        (Outcome.returned follows, st') ∧
      (∀ tag : Tag, Tag.nameBeginsWith "p" tag = true ↔
        ∃ suffix rest, tag = ("p" ++ suffix) :: rest) ∧
      ((∀ e ∈ received, ∀ tag ∈ e.Tags, Tag.nameBeginsWith "p" tag = false) → follows = []) ∧
      (∀ before ev after, received = before ++ ev :: after →
        (∀ e ∈ before, ∀ tag ∈ e.Tags, Tag.nameBeginsWith "p" tag = false) →
        (∃ tag ∈ ev.Tags, Tag.nameBeginsWith "p" tag = true) →
        (∀ x, follows.count x =
          (ev.Tags.filter
            (fun tag => Tag.nameBeginsWith "p" tag && decide (tag.Value = x))).length) ∧
        (follows.Nodup ↔
          ∀ x, (ev.Tags.filter
            (fun tag => Tag.nameBeginsWith "p" tag && decide (tag.Value = x))).length ≤ 1)) := by
  refine ⟨_, _,
    GetFollows_miss Decode npub discoveryRelays now₁ now₂ received st pk hmiss hdec hne,
    nameBeginsWith_iff "p", followLoop_none_named received, ?_⟩
  rintro before ev after rfl hbefore hev
  rw [followLoop_first_named before ev after hbefore hev]
  refine ⟨fun x => count_filter_values ev.Tags (Tag.nameBeginsWith "p") x, ?_⟩
  rw [List.nodup_iff_count_le_one]
  constructor
  · intro h x
    rw [← count_filter_values]
    exact h x
  · intro h x
    rw [count_filter_values]
    exact h x

/-- The statement of C6 as amended, on one event with two distinct `p` tags. -/
theorem GetFollows_multiplicity_witness :
    validEntry State.init.followCache ("follows_" ++ "npub1a") 5 = none ∧
    ["wss://discovery.example"] ≠ [] ∧
    ∃ follows st',
      GetFollows (fun _ => Except.ok ("npub", DecodedValue.str "a")) "npub1a"
          ["wss://discovery.example"] 5 6 [⟨"a", 3, [["p", "b"], ["p", "c"]]⟩] State.init =
        (Outcome.returned follows, st') ∧
      follows.count "b" = 1 :=
  ⟨rfl, by decide,
    match GetFollows_multiplicity (fun _ => Except.ok ("npub", DecodedValue.str "a"))
      "npub1a" ["wss://discovery.example"] 5 6 [⟨"a", 3, [["p", "b"], ["p", "c"]]⟩] State.init
      "a" rfl rfl (by decide) with
    | ⟨follows, st', h, _, _, hcount⟩ =>
      ⟨follows, st', h,
        ((hcount [] ⟨"a", 3, [["p", "b"], ["p", "c"]]⟩ [] rfl (by decide)
          (by decide)).1 "b").trans (by decide)⟩⟩

/-- C6 fails as stated: an event that names the identity `b` in two `p` tags makes
`GetFollows` return `b` twice. -/
theorem GetFollows_keeps_duplicates :
    validEntry State.init.followCache ("follows_" ++ "npub1a") 5 = none ∧
    (GetFollows (fun _ => Except.ok ("npub", DecodedValue.str "a")) "npub1a"
      ["wss://discovery.example"] 5 6 [⟨"a", 3, [["p", "b"], ["p", "b"]]⟩] State.init).1 =
      Outcome.returned ["b", "b"] ∧
    ¬ (["b", "b"] : List String).Nodup := by
  refine ⟨rfl, ?_, ?_⟩ <;> decide

/-! ## The request handler -/

theorem GetFollowsRelays_followCache (npub : String) (follows discoveryRelays : List String)
    (now₁ now₂ : Nat) (received : List Event) (st : State) :
    (GetFollowsRelays npub follows discoveryRelays now₁ now₂ received st).2.followCache =
      st.followCache := by
  cases hv : validEntry st.relayCache ("follows_relays_" ++ npub) now₁ with
  | some entry => simp only [GetFollowsRelays, hv]
  | none =>
    cases discoveryRelays with
    | nil => rw [GetFollowsRelays_miss_blocked npub follows now₁ now₂ received st hv]
    | cons d ds =>
      rw [GetFollowsRelays_miss npub follows (d :: ds) now₁ now₂ received st hv (by simp)]

theorem GetFollows_keysDecodable (Decode : Decoder) (npub : String)
    (discoveryRelays : List String) (now₁ now₂ : Nat) (received : List Event) (st : State)
    (h : FollowKeysDecodable Decode st) :
    FollowKeysDecodable Decode
      (GetFollows Decode npub discoveryRelays now₁ now₂ received st).2 := by
  cases hv : validEntry st.followCache ("follows_" ++ npub) now₁ with
  | some entry => rw [GetFollows_hit Decode npub discoveryRelays now₁ now₂ received st entry hv]; exact h
  | none =>
    cases hd : nPubToPubkey Decode npub with
    | panicked err =>
      rw [GetFollows_miss_panic Decode npub discoveryRelays now₁ now₂ received st err hv hd]
      exact h
    | blocked => exact absurd hd (nPubToPubkey_ne_blocked Decode npub)
    | returned pk =>
      cases discoveryRelays with
      | nil =>
        rw [GetFollows_miss_blocked Decode npub now₁ now₂ received st pk hv hd]
        exact h
      | cons d ds =>
        rw [GetFollows_miss Decode npub (d :: ds) now₁ now₂ received st pk hv hd (by simp)]
        intro n entry hn
        by_cases hk : "follows_" ++ n = "follows_" ++ npub
        · rw [follows_key_injective n npub hk]
          exact ⟨pk, hd⟩
        · have hn' : mapSet st.followCache ("follows_" ++ npub)
              ⟨followLoop received [], now₂ + cacheDuration⟩ ("follows_" ++ n) = some entry := hn
          rw [mapSet_other _ _ _ _ hk] at hn'
          exact h n entry hn'

theorem dynamicRelayHandler_followCache (Decode : Decoder) (req : Request) (st : State) :
    (dynamicRelayHandler Decode req st).2.followCache =
      (GetFollows Decode (TrimPrefix req.path "/") req.discovery₁ req.now₁ req.now₂
        req.followEvents st).2.followCache := by
  rcases hg : GetFollows Decode (TrimPrefix req.path "/") req.discovery₁ req.now₁ req.now₂
    req.followEvents st with ⟨out, st₁⟩
  cases out with
  | panicked err => simp only [dynamicRelayHandler, hg]
  | blocked => simp only [dynamicRelayHandler, hg]
  | returned follows =>
    have h := GetFollowsRelays_followCache (TrimPrefix req.path "/") follows req.discovery₂
      req.now₃ req.now₄ req.relayEvents st₁
    rcases hr : GetFollowsRelays (TrimPrefix req.path "/") follows req.discovery₂
      req.now₃ req.now₄ req.relayEvents st₁ with ⟨out₂, st₂⟩
    rw [hr] at h
    cases out₂ <;> simp only [dynamicRelayHandler, hg, hr] <;> exact h

/-- In every reachable state the follow cache is keyed by decodable tokens only. -/
theorem reachable_keysDecodable (Decode : Decoder) (st : State) (h : Reachable Decode st) :
    FollowKeysDecodable Decode st := by
  induction h with
  | init =>
    intro n entry hn
    simp [State.init] at hn
  | request req st _ ih =>
    intro n entry hn
    rw [dynamicRelayHandler_followCache] at hn
    exact GetFollows_keysDecodable Decode _ _ _ _ _ st ih n entry hn
  | query call st _ ih => exact ih

/-- C5, as the code has it: in every reachable state, a request whose identity token
fails to decode makes the handler panic with the decoding error, raised by
`nPubToPubkey` inside `GetFollows`; the state is left as it was, so nothing is written
to either cache and no subscription is opened. -/
theorem dynamicRelayHandler_decode_failure (Decode : Decoder) (req : Request) (st : State)
    (err : String) (hreach : Reachable Decode st)
    (hdec : Decode (TrimPrefix req.path "/") = Except.error err) :
    dynamicRelayHandler Decode req st = (Outcome.panicked err, st) := by
  have hpanic : nPubToPubkey Decode (TrimPrefix req.path "/") = Outcome.panicked err := by
    simp only [nPubToPubkey, hdec]
  have hmiss : validEntry st.followCache ("follows_" ++ TrimPrefix req.path "/") req.now₁ =
      none := by
    cases hv : validEntry st.followCache ("follows_" ++ TrimPrefix req.path "/") req.now₁ with
    | none => rfl
    | some entry =>
      obtain ⟨pk, hpk⟩ := reachable_keysDecodable Decode st hreach _ entry
        (validEntry_some _ _ _ _ hv)
      rw [hpanic] at hpk
      cases hpk
  unfold dynamicRelayHandler
  simp only [GetFollows_miss_panic Decode _ req.discovery₁ req.now₁ req.now₂ req.followEvents
    st err hmiss hpanic]

/-- The statement of C5 as amended, on the first request of a process. -/
theorem dynamicRelayHandler_decode_failure_witness :
    Reachable (fun _ => Except.error "invalid bech32 string") State.init ∧
    dynamicRelayHandler (fun _ => Except.error "invalid bech32 string")
      ⟨"/not-an-npub", ["wss://discovery.example"], ["wss://discovery.example"], 5, 6, 7, 8,
        [], []⟩ State.init = (Outcome.panicked "invalid bech32 string", State.init) :=
  ⟨Reachable.init,
    dynamicRelayHandler_decode_failure (fun _ => Except.error "invalid bech32 string")
      ⟨"/not-an-npub", ["wss://discovery.example"], ["wss://discovery.example"], 5, 6, 7, 8,
        [], []⟩ State.init "invalid bech32 string" Reachable.init rfl⟩

/-- C5 fails as stated: on a token that fails to decode the handler does not end with
an error result, it panics. -/
theorem dynamicRelayHandler_panics :
    (fun _ => Except.error "invalid bech32 string" : Decoder) "not-an-npub" =
      Except.error "invalid bech32 string" ∧
    TrimPrefix "/not-an-npub" "/" = "not-an-npub" ∧
    ∃ err, (dynamicRelayHandler (fun _ => Except.error "invalid bech32 string")
      ⟨"/not-an-npub", ["wss://discovery.example"], ["wss://discovery.example"], 5, 6, 7, 8,
        [], []⟩ State.init).1 = Outcome.panicked err :=
  ⟨rfl, by decide, "invalid bech32 string", rfl⟩

/-- C9: when the follow list and the relay list of the request's identity are resolved,
the handler installs one query handler; for every client filter it opens one
subscription, with a single filter that has the client filter's authors, kinds, tags
and limit and every other field at its zero value, on exactly the relay list that
`GetFollowsRelays` returned for the request's identity. -/
theorem dynamicRelayHandler_narrows_filter (Decode : Decoder) (req : Request)
    (st st₁ st₂ : State) (follows relays : List String)
    (hfollows : GetFollows Decode (TrimPrefix req.path "/") req.discovery₁ req.now₁ req.now₂
      req.followEvents st = (Outcome.returned follows, st₁))
    (hrelays : GetFollowsRelays (TrimPrefix req.path "/") follows req.discovery₂ req.now₃
      req.now₄ req.relayEvents st₁ = (Outcome.returned relays, st₂)) :
    ∃ handler,
      dynamicRelayHandler Decode req st = (Outcome.returned ⟨[handler]⟩, st₂) ∧
      ∀ (ctx : Context) (f : Filter),
        (handler ctx f).urls = relays ∧
        ∃ g, (handler ctx f).filters = [g] ∧
          g.Authors = f.Authors ∧ g.Kinds = f.Kinds ∧ g.Tags = f.Tags ∧ g.Limit = f.Limit ∧
          g.IDs = [] ∧ g.Since = none ∧ g.Until = none ∧ g.Search = "" ∧
          g.LimitZero = false := by
  refine ⟨queryEvents relays, ?_, ?_⟩
  · simp only [dynamicRelayHandler, hfollows, hrelays]
    rfl
  · intro ctx f
    exact ⟨rfl, _, rfl, rfl, rfl, rfl, rfl, rfl, rfl, rfl, rfl, rfl⟩

/-- The statement of C9 on the first request of a process. -/
theorem dynamicRelayHandler_narrows_filter_witness :
    ∃ handler st₂,
      dynamicRelayHandler (fun _ => Except.ok ("npub", DecodedValue.str "a"))
          ⟨"/npub1a", ["wss://discovery.example"], ["wss://discovery.example"], 5, 6, 7, 8,
            [⟨"a", 3, [["p", "b"]]⟩], [⟨"b", 10002, [["r", "wss://r1.example"]]⟩]⟩
          State.init = (Outcome.returned ⟨[handler]⟩, st₂) ∧
      (handler Context.Background { Authors := ["b"], Search := "x" }).urls =
        ["wss://r1.example"] :=
  match dynamicRelayHandler_narrows_filter (fun _ => Except.ok ("npub", DecodedValue.str "a"))
      ⟨"/npub1a", ["wss://discovery.example"], ["wss://discovery.example"], 5, 6, 7, 8,
        [⟨"a", 3, [["p", "b"]]⟩], [⟨"b", 10002, [["r", "wss://r1.example"]]⟩]⟩
      State.init _ _ ["b"] ["wss://r1.example"] rfl rfl with
  | ⟨handler, h, hq⟩ =>
    ⟨handler, _, h, (hq Context.Background { Authors := ["b"], Search := "x" }).1⟩

/-- C7 fails on the code: whatever scope the query handler is called with, it opens its
subscription under the background context, which is never done; a handler called with
a scope that has been cancelled still runs its subscription under a scope that is
not. -/
theorem queryEvents_background_scope :
    (∀ (relays : List String) (ctx : Context) (filter : Filter),
      (queryEvents relays ctx filter).ctx = Context.Background) ∧
    (∀ (relays : List String) (ctx : Context) (filter : Filter) (cancelled : Nat → Bool)
      (elapsed : Nat),
      Context.isDone cancelled elapsed (queryEvents relays ctx filter).ctx = false) ∧
    Context.isDone (fun id => decide (id = 1)) 0 (Context.WithCancel Context.Background 1) =
      true ∧
    (queryEvents ["wss://r1.example"] (Context.WithCancel Context.Background 1) {}).ctx ≠
      Context.WithCancel Context.Background 1 := by
  refine ⟨fun _ _ _ => rfl, fun _ _ _ _ _ => rfl, by decide, by decide⟩

end OutboxFeedRelay
